import Mathlib

/-!
Verification development for `svmlight_named2indexed.py`, a converter from
svmlight data files with string-named features to files with integer feature
indices.  Python 2 strings are modelled as `List Char`; the mutable `Indexer`
object is modelled as an explicit state record threaded through the functions;
file writes are modelled as accumulated lists of written chunks; a raised
exception is modelled with `Except` / an error field.
-/

set_option maxHeartbeats 1000000

/-- Python's whitespace set for `str.strip()`. -/
def isPySpace (c : Char) : Bool :=
  c = ' ' || c = '\t' || c = '\n' || c = '\x0d' || c = '\x0b' || c = '\x0c'

/-- Model of Python `line.strip()`: drop whitespace from both ends. -/
def pyStrip (s : List Char) : List Char :=
  ((s.dropWhile isPySpace).reverse.dropWhile isPySpace).reverse

/-- Model of Python `s.split(sep)` for a one-character separator `sep`:
splits at every occurrence, keeping empty segments; the result is nonempty. -/
def splitChar (sep : Char) : List Char → List (List Char)
  | [] => [[]]
  | a :: rest =>
    if a = sep then [] :: splitChar sep rest
    else
      match splitChar sep rest with
      | [] => [[a]]
      | r :: rs => (a :: r) :: rs

/-- Model of Python `s.split(sep, 1)` when `sep` occurs in `s`:
splits at the first occurrence of `sep` only. -/
def splitCharFirst (sep : Char) : List Char → (List Char × List Char)
  | [] => ([], [])
  | a :: rest =>
    if a = sep then ([], rest)
    else
      let p := splitCharFirst sep rest
      (a :: p.1, p.2)

/-- Model of Python `sep.join(parts)` for a one-character separator. -/
def joinChar (sep : Char) : List (List Char) → List Char
  | [] => []
  | [x] => x
  | x :: y :: rest => x ++ sep :: joinChar sep (y :: rest)

/-- A feature reference after conversion: in the Python source this is either
the string `'qid'` or an `int` index. -/
inductive FeatureRef where
  | qid : FeatureRef
  | idx : Nat → FeatureRef
deriving DecidableEq, Repr

/-- The literal feature name `qid`. -/
def qidStr : List Char := ['q', 'i', 'd']

/-- First-match association-list lookup, modelling Python dict read access
(`feature in self.string2index` / `self.string2index[feature]`); keys are
unique in all reachable states, so first-match agrees with the dict. -/
def lookupA (l : List (List Char × Nat)) (n : List Char) : Option Nat :=
  match l with
  | [] => none
  | (k, v) :: rest => if k = n then some v else lookupA rest n

/-- State of the `Indexer` class: `knownFeatures` list, `string2index` dict
(modelled as an association list in insertion order), `nextIndex` counter and
the optional live mapping writer (modelled as the list of `(index, name)`
entries written to the mapping file so far). -/
structure Indexer where
  knownFeatures : List (List Char)
  string2index : List (List Char × Nat)
  nextIndex : Nat
  mappingWriter : Option (List (Nat × List Char))
deriving DecidableEq, Repr

/-- `Indexer.__init__`. -/
def Indexer.init : Indexer :=
  { knownFeatures := [], string2index := [], nextIndex := 1, mappingWriter := none }

/-- `Indexer.getIndex4Feature`: `'qid'` passes through; known features return
their stored index; a new feature receives `nextIndex`, is appended to
`knownFeatures` and `string2index`, and (if live writing is active) its
`(index, name)` entry is appended to the mapping writer. -/
def getIndex4Feature (st : Indexer) (feature : List Char) : FeatureRef × Indexer :=
  if feature = qidStr then
    (FeatureRef.qid, st)
  else
    match lookupA st.string2index feature with
    | some i => (FeatureRef.idx i, st)
    | none =>
      let i := st.nextIndex
      (FeatureRef.idx i,
        { knownFeatures := st.knownFeatures ++ [feature]
          string2index := st.string2index ++ [(feature, i)]
          nextIndex := i + 1
          mappingWriter := st.mappingWriter.map (fun w => w ++ [(i, feature)]) })

/-- Python 2 `<` on the mixed-type first tuple component: integers order below
any string, integers order among themselves numerically, and the only string
value reachable here is `'qid'`. -/
def pyLtRef : FeatureRef → FeatureRef → Bool
  | FeatureRef.idx m, FeatureRef.idx n => decide (m < n)
  | FeatureRef.idx _, FeatureRef.qid => true
  | FeatureRef.qid, FeatureRef.idx _ => false
  | FeatureRef.qid, FeatureRef.qid => false

/-- Python 2 `<` on byte strings: lexicographic by character code, a strict
prefix ordering below its extensions. -/
def pyLtStr : List Char → List Char → Bool
  | [], [] => false
  | [], _ :: _ => true
  | _ :: _, [] => false
  | a :: s, b :: t =>
    if a < b then true
    else if b < a then false
    else pyLtStr s t

/-- Python 2 `<=` on `(featureIndex, value)` tuples: lexicographic, first
component by `pyLtRef`, on ties the string values decide. -/
def pyLePair (x y : FeatureRef × List Char) : Bool :=
  if pyLtRef x.1 y.1 then true
  else if pyLtRef y.1 x.1 then false
  else pyLtStr x.2 y.2 || decide (x.2 = y.2)

/-- Insert into a sorted list (used to model `list.sort()`). -/
def insertSorted (le : α → α → Bool) (x : α) : List α → List α
  | [] => [x]
  | y :: ys => if le x y then x :: y :: ys else y :: insertSorted le x ys

/-- Sort by repeated insertion.  `pyLePair` is a total antisymmetric order on
the pairs this is applied to, so any comparison sort — in particular CPython's
stable `list.sort()` — produces this same unique sorted arrangement. -/
def pySortG (le : α → α → Bool) (l : List α) : List α :=
  l.foldr (insertSorted le) []

/-- Model of `indexedFeatures.sort()` in `getIndicesForFeatureList`. -/
def pySort (l : List (FeatureRef × List Char)) : List (FeatureRef × List Char) :=
  pySortG pyLePair l

/-- Adjacent-pairs sortedness check for a boolean order. -/
def sortedBy (le : α → α → Bool) : List α → Bool
  | [] => true
  | [_] => true
  | a :: b :: rest => le a b && sortedBy le (b :: rest)

/-- The loop body of `Indexer.getIndicesForFeatureList`: convert each name in
input order, tracking the set `usedIndices`; on a repeated converted reference
raise `ValueError` (carrying the duplicate name), keeping all state mutations
made so far. -/
def indexLoop (st : Indexer) (pairs : List (List Char × List Char))
    (used : List FeatureRef) : Except (List Char) (List (FeatureRef × List Char)) × Indexer :=
  match pairs with
  | [] => (Except.ok [], st)
  | (n, v) :: rest =>
    let r := (getIndex4Feature st n).1
    let st' := (getIndex4Feature st n).2
    if r ∈ used then (Except.error n, st')
    else
      match indexLoop st' rest (r :: used) with
      | (Except.ok l, st'') => (Except.ok ((r, v) :: l), st'')
      | (Except.error e, st'') => (Except.error e, st'')

/-- `Indexer.getIndicesForFeatureList`: run the conversion loop, then sort the
converted pairs ascending (Python 2 mixed-type sort). -/
def getIndicesForFeatureList (st : Indexer) (pairs : List (List Char × List Char)) :
    Except (List Char) (List (FeatureRef × List Char)) × Indexer :=
  match indexLoop st pairs [] with
  | (Except.ok l, st') => (Except.ok (pySort l), st')
  | (Except.error e, st') => (Except.error e, st')

/-- Fold `getIndex4Feature` over a list of names, keeping only the state. -/
def internAll (st : Indexer) (names : List (List Char)) : Indexer :=
  names.foldl (fun s n => (getIndex4Feature s n).2) st

/-- The sequence of references produced when converting `names` in order. -/
def refsOf (st : Indexer) : List (List Char) → List FeatureRef
  | [] => []
  | n :: rest => (getIndex4Feature st n).1 :: refsOf (getIndex4Feature st n).2 rest

/-- A parsed data record: target label, `(featureName, value)` pairs in line
order, optional trailing info segment. -/
structure Record where
  target : List Char
  features : List (List Char × List Char)
  info : Option (List Char)
deriving DecidableEq, Repr

/-- Outcome of `_parseDataLine`: `nil` models the Python `return None` on an
empty line, `err` models the uncaught `ValueError` from the two-variable
unpacking of `line.rsplit('#')` when the line holds two or more `#`. -/
inductive ParseResult where
  | nil : ParseResult
  | err : ParseResult
  | ok : Record → ParseResult
deriving DecidableEq, Repr

/-- The target/feature extraction part of `_parseDataLine`, applied to the
text left of the info split: split on single spaces, first token is the
target, remaining tokens holding a `:` are split at their first `:`. -/
def parseBody (line' : List Char) (info : Option (List Char)) : Record :=
  let elems := splitChar ' ' line'
  { target := elems.headI
    features := (elems.tail.filter (fun f => decide (':' ∈ f))).map (splitCharFirst ':')
    info := info }

/-- `_parseDataLine`: empty line yields `None`; if the line holds `#`, it is
split by `rsplit('#')` (all occurrences) and unpacked into two variables —
exactly one `#` succeeds, two or more raise `ValueError`; the info field is
reattached with its `#`; then target and features are extracted. -/
def _parseDataLine (line : List Char) : ParseResult :=
  if line = [] then ParseResult.nil
  else if '#' ∈ line then
    match splitChar '#' line with
    | [a, b] => ParseResult.ok (parseBody a (some ('#' :: b)))
    | _ => ParseResult.err
  else ParseResult.ok (parseBody line none)

/-- Rendering of a converted feature reference by Python `str.format`:
an index prints in decimal, `'qid'` prints as itself. -/
def featureRefStr : FeatureRef → List Char
  | FeatureRef.qid => qidStr
  | FeatureRef.idx n => (toString n).toList

/-- Python `'{0}'.format(info)` where `info` may be `None`. -/
def infoText : Option (List Char) → List Char
  | none => ['N', 'o', 'n', 'e']
  | some s => s

/-- `_writeSVMLightData_DataItem`: one output line
`target feature:value ... info\n`; features are passed already rendered. -/
def _writeSVMLightData_DataItem (target : List Char)
    (features : List (List Char × List Char)) (info : Option (List Char)) : List Char :=
  target ++ ' ' :: joinChar ' ' (features.map (fun p => p.1 ++ ':' :: p.2))
    ++ ' ' :: infoText info ++ ['\n']

/-- Serialization of a record whose features are converted references. -/
def writeIndexedItem (target : List Char) (features : List (FeatureRef × List Char))
    (info : Option (List Char)) : List Char :=
  _writeSVMLightData_DataItem target (features.map (fun p => (featureRefStr p.1, p.2))) info

/-- `_writeSVMLightData_Comment`: the comment line followed by a newline. -/
def _writeSVMLightData_Comment (comment : List Char) : List Char :=
  comment ++ ['\n']

/-- `Indexer.activateIndex2NameMappingLiveWriting`: open the mapping writer
and flush all features interned so far, in assignment order. -/
def activateLiveWriting (st : Indexer) : Indexer :=
  { st with mappingWriter := some (st.knownFeatures.enum.map (fun p => (p.1 + 1, p.2))) }

/-- `Indexer.deactivateIndex2NameMappingLiveWriting`: close and drop the
mapping writer. -/
def deactivateLiveWriting (st : Indexer) : Indexer :=
  { st with mappingWriter := none }

/-- An exception escaping the conversion run. -/
inductive RunError where
  | dupFeature : List Char → RunError
  | valueErr : RunError
deriving DecidableEq, Repr

/-- The per-line loop of `generateIndexedData` over `loadSVMLightDataIter`:
strip each line, skip empty lines, write comment lines verbatim, parse and
convert data lines; an exception aborts the loop, keeping the chunks written
so far and the indexer state at the raise. -/
def runLoop (st : Indexer) : List (List Char) →
    List (List Char) × Option RunError × Indexer
  | [] => ([], none, st)
  | l :: rest =>
    let s := pyStrip l
    if s = [] then runLoop st rest
    else if s.head? = some '#' then
      let out := runLoop st rest
      (_writeSVMLightData_Comment s :: out.1, out.2.1, out.2.2)
    else
      match _parseDataLine s with
      | ParseResult.ok r =>
        match getIndicesForFeatureList st r.features with
        | (Except.ok fs, st') =>
          let out := runLoop st' rest
          (writeIndexedItem r.target fs r.info :: out.1, out.2.1, out.2.2)
        | (Except.error n, st') => ([], some (RunError.dupFeature n), st')
      | _ => ([], some RunError.valueErr, st)

/-- Observable outcome of one `generateIndexedData` call. -/
structure RunResult where
  outChunks : List (List Char)
  mapping : Option (List (Nat × List Char))
  mappingClosed : Bool
  err : Option RunError
  indexer : Indexer
deriving DecidableEq, Repr

/-- `generateIndexedData`: optionally activate live mapping writing, stream
the input lines through the loop, and — only when the loop finishes without
an exception — deactivate (close) the mapping writer.  An exception
propagates before the `deactivateIndex2NameMappingLiveWriting()` call. -/
def generateIndexedData (lines : List (List Char)) (mappingFile : Bool) : RunResult :=
  let st0 := if mappingFile then activateLiveWriting Indexer.init else Indexer.init
  let out := runLoop st0 lines
  let e := out.2.1
  let st1 := out.2.2
  let closed := mappingFile && e.isNone
  { outChunks := out.1
    mapping := if mappingFile then st1.mappingWriter else none
    mappingClosed := closed
    err := e
    indexer := if closed then deactivateLiveWriting st1 else st1 }

/-- `generateIndexedData` on a whole input file given as one string; Python's
line iteration is modelled by splitting at newline characters (the loop strips
each line, so the presence or absence of the terminator is immaterial). -/
def generateIndexedDataStr (content : String) (mappingFile : Bool) : RunResult :=
  generateIndexedData (splitChar '\n' content.toList) mappingFile

/-- The whole output file as a single character sequence. -/
def fileOutput (r : RunResult) : List Char :=
  r.outChunks.flatten

/-- Spec-level description of the streaming output, position by position: a
comment line is emitted verbatim at its own position, a data line is emitted
converted at its own position, with the interner state threaded in input
order; an exception truncates the output at the offending line. -/
def interleaveSpec (st : Indexer) : List (List Char) → List (List Char)
  | [] => []
  | l :: rest =>
    if l.head? = some '#' then
      _writeSVMLightData_Comment l :: interleaveSpec st rest
    else
      match _parseDataLine l with
      | ParseResult.ok r =>
        match getIndicesForFeatureList st r.features with
        | (Except.ok fs, st') => writeIndexedItem r.target fs r.info :: interleaveSpec st' rest
        | (Except.error _, _) => []
      | _ => []

/-- The stripped, nonempty lines of the input, in order — the lines the
loader actually yields. -/
def keptLines (lines : List (List Char)) : List (List Char) :=
  (lines.map pyStrip).filter (fun s => !s.isEmpty)

/-- Modelled from the spec: the distinct non-`qid` names of a list, keeping
first occurrences, given an initial set `seen` of already-known names. -/
def distinctNonQid (seen : List (List Char)) : List (List Char) → List (List Char)
  | [] => []
  | n :: rest =>
    if n = qidStr ∨ n ∈ seen then distinctNonQid seen rest
    else n :: distinctNonQid (n :: seen) rest

/-- Modelled from the spec (section 3 total order): `qid` sorts before every
integer index. -/
def spec3LtRef : FeatureRef → FeatureRef → Bool
  | FeatureRef.idx m, FeatureRef.idx n => decide (m < n)
  | FeatureRef.idx _, FeatureRef.qid => false
  | FeatureRef.qid, FeatureRef.idx _ => true
  | FeatureRef.qid, FeatureRef.qid => false

/-- Modelled from the spec: the section 3 order lifted to pairs. -/
def spec3LePair (x y : FeatureRef × List Char) : Bool :=
  if spec3LtRef x.1 y.1 then true
  else if spec3LtRef y.1 x.1 then false
  else pyLtStr x.2 y.2 || decide (x.2 = y.2)

/-- Well-formedness of an optional info field: absent, or a `#` followed by
`#`-free text (the shape parsing itself produces). -/
def WFInfo : Option (List Char) → Prop
  | none => True
  | some s => s.head? = some '#' ∧ '#' ∉ s.tail

instance : (o : Option (List Char)) → Decidable (WFInfo o)
  | none => Decidable.isTrue trivial
  | some s => by unfold WFInfo; infer_instance

/-- Well-formedness for the codec round trip: nonempty target, no separator
characters embedded in the fields, and a well-formed info field. -/
def WFRecord (r : Record) : Prop :=
  r.target ≠ [] ∧ ' ' ∉ r.target ∧ '#' ∉ r.target ∧
  (∀ p ∈ r.features, ':' ∉ p.1 ∧ ' ' ∉ p.1 ∧ '#' ∉ p.1 ∧ ' ' ∉ p.2 ∧ '#' ∉ p.2) ∧
  WFInfo r.info

/-- The argument-count check of `main`: Python's chained comparison
`2 > len(args) > 3` means `2 > len(args) and len(args) > 3`. -/
def mainUsageCheck (nargs : Nat) : Bool :=
  decide (2 > nargs) && decide (nargs > 3)

/-- `main` attempts the conversion exactly when the usage branch is not
taken. -/
def mainAttemptsConversion (nargs : Nat) : Bool :=
  !mainUsageCheck nargs

/-- Boolean error test for `Except`. -/
def errE : Except ε α → Bool
  | Except.error _ => true
  | Except.ok _ => false

/-- The structural invariant of every reachable `Indexer` state: the dict is
exactly the position-indexed view of `knownFeatures` (indices `1..K` in
assignment order), `nextIndex` is `K + 1`, and `qid` was never interned. -/
def IndexerInv (st : Indexer) : Prop :=
  st.string2index = st.knownFeatures.enum.map (fun p => (p.2, p.1 + 1)) ∧
  st.nextIndex = st.knownFeatures.length + 1 ∧
  qidStr ∉ st.knownFeatures ∧
  st.knownFeatures.Nodup

instance (st : Indexer) : Decidable (IndexerInv st) := by
  unfold IndexerInv; infer_instance

instance (r : Record) : Decidable (WFRecord r) := by
  unfold WFRecord; infer_instance

deriving instance DecidableEq for Except

/-- Claim C9 failing input: with one positional argument the usage branch of
`main` is not taken — the chained comparison `2 > len(args) > 3` is
unsatisfiable — so `main` attempts the conversion for every argument count. -/
theorem mainUsageCheck_never_fires :
    mainUsageCheck 1 = false ∧ mainAttemptsConversion 1 = true ∧
    ∀ n, mainUsageCheck n = false := by
  refine ⟨rfl, rfl, fun n => ?_⟩
  simp only [mainUsageCheck, Bool.and_eq_false_iff, decide_eq_false_iff_not]
  omega

/-- Claim C8 counterexample: a conversion run with a live mapping sink that
aborts on a duplicate feature leaves the sink unclosed —
`deactivateIndex2NameMappingLiveWriting` is skipped on the exception path. -/
theorem mapping_sink_left_open_on_error :
    (generateIndexedDataStr "1 a:1 a:2\n" true).err = some (RunError.dupFeature ['a']) ∧
    (generateIndexedDataStr "1 a:1 a:2\n" true).mappingClosed = false := ⟨rfl, rfl⟩

/-- C8 (amended): in live-mapping mode the mapping sink is closed exactly on
the normal-completion exit of `generateIndexedData`; an exception raised
mid-stream skips the paired deactivate call. -/
theorem mapping_sink_closed_iff_no_error (lines : List (List Char)) :
    (generateIndexedData lines true).mappingClosed
      = (generateIndexedData lines true).err.isNone := by
  simp [generateIndexedData]

/-- Claim C3 counterexample: on the spec's example input the produced output
file is `"1 1:10 2:20 qid:A None\n2 1:5 2:30 qid:B None\n"` — qid sorts last
(Python 2 orders integers below strings) and the absent info field prints as
`None` — not the output the claim states. -/
theorem example_file_output_differs_from_claim :
    fileOutput (generateIndexedDataStr "1 qid:A x:10 y:20\n2 qid:B y:30 x:5\n" true)
      = ("1 1:10 2:20 qid:A None\n2 1:5 2:30 qid:B None\n").toList ∧
    ("1 1:10 2:20 qid:A None\n2 1:5 2:30 qid:B None\n").toList
      ≠ ("1 qid:A 1:10 2:20 \n2 qid:B 2:30 1:5 \n").toList := ⟨rfl, by decide⟩

/-- C3 (amended): the example conversion run maps `x` to 1 and `y` to 2
(first-occurrence order), writes the mapping file entries `1 x` and `2 y`,
and produces the output file `"1 1:10 2:20 qid:A None\n2 1:5 2:30 qid:B
None\n"`: within each record the integer indices ascend and the qid pair
comes last, and each line ends with ` None` because the absent info field is
Python `None` rendered by `str.format`. -/
theorem example_file_output :
    fileOutput (generateIndexedDataStr "1 qid:A x:10 y:20\n2 qid:B y:30 x:5\n" true)
      = ("1 1:10 2:20 qid:A None\n2 1:5 2:30 qid:B None\n").toList ∧
    (generateIndexedDataStr "1 qid:A x:10 y:20\n2 qid:B y:30 x:5\n" true).mapping
      = some [(1, ['x']), (2, ['y'])] ∧
    (generateIndexedDataStr "1 qid:A x:10 y:20\n2 qid:B y:30 x:5\n" true).err = none :=
  ⟨rfl, rfl, rfl⟩

/-- Claim C2 counterexample: converting the record `qid:A x:10` yields the
list `[(1, 10), (qid, A)]` — the qid pair comes last, so the output is not
sorted by the spec section 3 order that places `qid` before every integer
index. -/
theorem qid_sorts_last_not_first :
    (getIndicesForFeatureList Indexer.init [(qidStr, ['A']), (['x'], ['1', '0'])]).1
      = Except.ok [(FeatureRef.idx 1, ['1', '0']), (FeatureRef.qid, ['A'])] ∧
    sortedBy spec3LePair [(FeatureRef.idx 1, ['1', '0']), (FeatureRef.qid, ['A'])] = false :=
  ⟨rfl, rfl⟩

/-- Claim C6 counterexample: a data line with two `#` characters does not
split at the first `#`; the two-variable unpacking of `rsplit('#')` raises
`ValueError` instead. -/
theorem parse_errors_on_two_hashes :
    _parseDataLine ("1 a:1#b#c".toList) = ParseResult.err ∧
    ParseResult.err
      ≠ ParseResult.ok ⟨"1".toList, [("a".toList, "1".toList)], some ("#b#c".toList)⟩ :=
  ⟨rfl, by decide⟩

theorem splitChar_ne_nil (sep : Char) (s : List Char) : splitChar sep s ≠ [] := by
  induction s with
  | nil => simp [splitChar]
  | cons a rest ih =>
    simp only [splitChar]
    split
    · simp
    · cases h : splitChar sep rest with
      | nil => simp
      | cons r rs => simp

theorem splitChar_no_sep (sep : Char) (s : List Char) (h : sep ∉ s) :
    splitChar sep s = [s] := by
  induction s with
  | nil => rfl
  | cons a rest ih =>
    simp only [List.mem_cons, not_or] at h
    simp only [splitChar]
    rw [if_neg (fun hh => h.1 hh.symm), ih h.2]

theorem splitChar_append_sep (sep : Char) (a rest : List Char) (h : sep ∉ a) :
    splitChar sep (a ++ sep :: rest) = a :: splitChar sep rest := by
  induction a with
  | nil => simp [splitChar]
  | cons x xs ih =>
    simp only [List.mem_cons, not_or] at h
    simp only [List.cons_append, splitChar, List.append_eq]
    rw [if_neg (fun hh => h.1 hh.symm), ih h.2]

theorem splitChar_two_le_length (sep : Char) (s : List Char) (h : sep ∈ s) :
    2 ≤ (splitChar sep s).length := by
  induction s with
  | nil => simp at h
  | cons a rest ih =>
    simp only [splitChar]
    by_cases ha : a = sep
    · rw [if_pos ha]
      have := splitChar_ne_nil sep rest
      cases hr : splitChar sep rest with
      | nil => exact absurd hr this
      | cons r rs => simp
    · rw [if_neg ha]
      have hrest : sep ∈ rest := by
        rcases List.mem_cons.mp h with h1 | h1
        · exact absurd h1.symm ha
        · exact h1
      cases hr : splitChar sep rest with
      | nil => exact absurd hr (splitChar_ne_nil sep rest)
      | cons r rs =>
        have := ih hrest
        rw [hr] at this
        simpa using this

theorem splitChar_join (sep : Char) (toks : List (List Char)) (rest : List Char)
    (h : ∀ x ∈ toks, sep ∉ x) :
    splitChar sep (joinChar sep toks ++ sep :: rest)
      = (if toks = [] then [[]] else toks) ++ splitChar sep rest := by
  induction toks with
  | nil => simp [joinChar, splitChar]
  | cons x xs ih =>
    cases xs with
    | nil =>
      simp only [joinChar, if_neg (by simp : ¬(([x] : List (List Char)) = []))]
      rw [splitChar_append_sep sep x rest (h x (by simp))]
      rfl
    | cons y ys =>
      simp only [joinChar, List.cons_append, List.append_assoc]
      rw [splitChar_append_sep sep x _ (h x (by simp))]
      rw [ih (fun z hz => h z (List.mem_cons_of_mem x hz))]
      simp

theorem splitCharFirst_append (sep : Char) (n v : List Char) (h : sep ∉ n) :
    splitCharFirst sep (n ++ sep :: v) = (n, v) := by
  induction n with
  | nil => simp [splitCharFirst]
  | cons x xs ih =>
    simp only [List.mem_cons, not_or] at h
    simp only [List.cons_append, splitCharFirst, List.append_eq]
    rw [if_neg (fun hh => h.1 hh.symm), ih h.2]

theorem parse_line_one_hash (a b : List Char) (ha : '#' ∉ a) (hb : '#' ∉ b) :
    _parseDataLine (a ++ '#' :: b) = ParseResult.ok (parseBody a (some ('#' :: b))) := by
  have hne : a ++ '#' :: b ≠ [] := by
    intro hcontra
    rcases List.append_eq_nil.mp hcontra with ⟨-, h2⟩
    exact List.cons_ne_nil _ _ h2
  have hmem : '#' ∈ a ++ '#' :: b := List.mem_append_right a (List.mem_cons_self _ _)
  rw [_parseDataLine, if_neg hne, if_pos hmem,
    splitChar_append_sep '#' a b ha, splitChar_no_sep '#' b hb]

theorem parse_line_two_hashes (a b : List Char) (ha : '#' ∉ a) (hb : '#' ∈ b) :
    _parseDataLine (a ++ '#' :: b) = ParseResult.err := by
  have hne : a ++ '#' :: b ≠ [] := by
    intro hcontra
    rcases List.append_eq_nil.mp hcontra with ⟨-, h2⟩
    exact List.cons_ne_nil _ _ h2
  have hmem : '#' ∈ a ++ '#' :: b := List.mem_append_right a (List.mem_cons_self _ _)
  rw [_parseDataLine, if_neg hne, if_pos hmem, splitChar_append_sep '#' a b ha]
  cases hsb : splitChar '#' b with
  | nil => exact absurd hsb (splitChar_ne_nil '#' b)
  | cons r rs =>
    cases rs with
    | nil =>
      have := splitChar_two_le_length '#' b hb
      rw [hsb] at this
      simp at this
    | cons r2 rs2 => rfl

theorem parse_line_no_hash (line : List Char) (hl : '#' ∉ line) (hl2 : line ≠ []) :
    _parseDataLine line = ParseResult.ok (parseBody line none) := by
  rw [_parseDataLine, if_neg hl2, if_neg hl]

/-- C6 (amended): `_parseDataLine` splits off the info segment at the `#`
character only when the line holds exactly one `#` (that occurrence is then
both the first and the last); a line with two or more `#` characters makes
the two-variable unpacking of `rsplit('#')` raise `ValueError`; with no `#`
the info field is absent. -/
theorem parse_info_split (a b line : List Char) (ha : '#' ∉ a) :
    ('#' ∉ b → _parseDataLine (a ++ '#' :: b) = ParseResult.ok (parseBody a (some ('#' :: b)))) ∧
    ('#' ∈ b → _parseDataLine (a ++ '#' :: b) = ParseResult.err) ∧
    ('#' ∉ line → line ≠ [] → _parseDataLine line = ParseResult.ok (parseBody line none)) :=
  ⟨fun hb => parse_line_one_hash a b ha hb,
   fun hb => parse_line_two_hashes a b ha hb,
   fun hl hl2 => parse_line_no_hash line hl hl2⟩

/-- Claim C6 witness instantiation data for `parse_info_split`. -/
theorem parse_info_split_witness :
    _parseDataLine (("1 a:1" ++ "#x y").toList)
        = ParseResult.ok (parseBody ("1 a:1".toList) (some ("#x y").toList)) ∧
    _parseDataLine (("1 a:1" ++ "#x#y").toList) = ParseResult.err ∧
    _parseDataLine ("1 a:1".toList) = ParseResult.ok (parseBody ("1 a:1".toList) none) := by
  have h := parse_info_split ("1 a:1".toList) ("x y".toList) ("1 a:1".toList) (by decide)
  have h2 := parse_info_split ("1 a:1".toList) ("x#y".toList) ("1 a:1".toList) (by decide)
  exact ⟨h.1 (by decide), h2.2.1 (by decide), h.2.2 (by decide) (by decide)⟩

theorem mem_joinChar {c sep : Char} {toks : List (List Char)}
    (h : c ∈ joinChar sep toks) : c = sep ∨ ∃ x ∈ toks, c ∈ x := by
  induction toks with
  | nil => simp [joinChar] at h
  | cons x xs ih =>
    cases xs with
    | nil =>
      simp only [joinChar] at h
      exact Or.inr ⟨x, by simp, h⟩
    | cons y ys =>
      simp only [joinChar] at h
      rcases List.mem_append.mp h with h1 | h1
      · exact Or.inr ⟨x, by simp, h1⟩
      · rcases List.mem_cons.mp h1 with h2 | h2
        · exact Or.inl h2
        · rcases ih h2 with h3 | ⟨z, hz1, hz2⟩
          · exact Or.inl h3
          · exact Or.inr ⟨z, List.mem_cons_of_mem x hz1, hz2⟩

theorem parseBody_serialized (t : List Char) (fts : List (List Char × List Char))
    (z : List Char) (info : Option (List Char)) (ht : ' ' ∉ t)
    (hf : ∀ p ∈ fts, ':' ∉ p.1 ∧ ' ' ∉ p.1 ∧ ' ' ∉ p.2)
    (hz1 : ' ' ∉ z) (hz2 : ':' ∉ z) :
    parseBody (t ++ ' ' :: (joinChar ' ' (fts.map (fun p => p.1 ++ ':' :: p.2)) ++ ' ' :: z))
        info = ⟨t, fts, info⟩ := by
  have htokSpace : ∀ x ∈ fts.map (fun p => p.1 ++ ':' :: p.2), ' ' ∉ x := by
    intro x hx
    rcases List.mem_map.mp hx with ⟨p, hp, rfl⟩
    intro hmem
    rcases List.mem_append.mp hmem with h1 | h1
    · exact (hf p hp).2.1 h1
    · rcases List.mem_cons.mp h1 with h2 | h2
      · exact absurd h2 (by decide)
      · exact (hf p hp).2.2 h2
  rw [parseBody, splitChar_append_sep ' ' t _ ht,
    splitChar_join ' ' _ z htokSpace, splitChar_no_sep ' ' z hz1]
  simp only [List.headI, List.tail_cons, List.filter_append]
  have hzdrop : List.filter (fun f => decide (':' ∈ f)) [z] = [] := by
    simp [List.filter, decide_eq_false hz2]
  rw [hzdrop, List.append_nil]
  by_cases hfts : fts = []
  · subst hfts
    simp
  · have htoks : fts.map (fun p => p.1 ++ ':' :: p.2) ≠ [] := by
      simpa using hfts
    rw [if_neg htoks]
    have hkeep : List.filter (fun f => decide (':' ∈ f))
        (fts.map (fun p => p.1 ++ ':' :: p.2)) = fts.map (fun p => p.1 ++ ':' :: p.2) := by
      rw [List.filter_eq_self]
      intro x hx
      rcases List.mem_map.mp hx with ⟨p, hp, rfl⟩
      exact decide_eq_true (List.mem_append_right p.1 (List.mem_cons_self ':' p.2))
    rw [hkeep, List.map_map]
    have hmapid : fts.map (splitCharFirst ':' ∘ fun p => p.1 ++ ':' :: p.2) = fts := by
      have : ∀ p ∈ fts, (splitCharFirst ':' ∘ fun p => p.1 ++ ':' :: p.2) p = p := by
        intro p hp
        exact splitCharFirst_append ':' p.1 p.2 (hf p hp).1
      calc fts.map (splitCharFirst ':' ∘ fun p => p.1 ++ ':' :: p.2)
          = fts.map id := List.map_congr_left this
        _ = fts := List.map_id fts
    rw [hmapid]

/-- C7: serializing a well-formed record with `_writeSVMLightData_DataItem`
and parsing the resulting line with `_parseDataLine` returns the record
unchanged; the rendered info text (in particular the literal `None` standing
for an absent info field) is a token without `:` and is silently discarded by
the parser, as documented. -/
theorem serialize_parse_round_trip (r : Record) (h : WFRecord r) :
    _parseDataLine ((_writeSVMLightData_DataItem r.target r.features r.info).dropLast)
      = ParseResult.ok r := by
  obtain ⟨t, fts, info⟩ := r
  obtain ⟨ht1, ht2, ht3, hf, hi⟩ := h
  have hf' : ∀ p ∈ fts, ':' ∉ p.1 ∧ ' ' ∉ p.1 ∧ ' ' ∉ p.2 :=
    fun p hp => ⟨(hf p hp).1, (hf p hp).2.1, (hf p hp).2.2.2.1⟩
  have hJhash : '#' ∉ joinChar ' ' (fts.map (fun p => p.1 ++ ':' :: p.2)) := by
    intro hc
    rcases mem_joinChar hc with h1 | ⟨x, hx1, hx2⟩
    · exact absurd h1 (by decide)
    · rcases List.mem_map.mp hx1 with ⟨p, hp, rfl⟩
      rcases List.mem_append.mp hx2 with h2 | h2
      · exact (hf p hp).2.2.1 h2
      · rcases List.mem_cons.mp h2 with h3 | h3
        · exact absurd h3 (by decide)
        · exact (hf p hp).2.2.2.2 h3
  have hser : (_writeSVMLightData_DataItem t fts info).dropLast
      = t ++ ' ' :: (joinChar ' ' (fts.map (fun p => p.1 ++ ':' :: p.2))
          ++ ' ' :: infoText info) := by
    have heq : _writeSVMLightData_DataItem t fts info
        = (t ++ ' ' :: (joinChar ' ' (fts.map (fun p => p.1 ++ ':' :: p.2))
            ++ ' ' :: infoText info)) ++ ['\n'] := by
      simp [_writeSVMLightData_DataItem]
    rw [heq, List.dropLast_concat]
  rw [hser]
  cases info with
  | none =>
    have hline : '#' ∉ t ++ ' ' :: (joinChar ' ' (fts.map (fun p => p.1 ++ ':' :: p.2))
        ++ ' ' :: infoText none) := by
      intro hc
      rcases List.mem_append.mp hc with h1 | h1
      · exact ht3 h1
      · rcases List.mem_cons.mp h1 with h2 | h2
        · exact absurd h2 (by decide)
        · rcases List.mem_append.mp h2 with h3 | h3
          · exact hJhash h3
          · rcases List.mem_cons.mp h3 with h4 | h4
            · exact absurd h4 (by decide)
            · exact absurd h4 (by decide)
    have hne : t ++ ' ' :: (joinChar ' ' (fts.map (fun p => p.1 ++ ':' :: p.2))
        ++ ' ' :: infoText none) ≠ [] := by
      intro hcontra
      rcases List.append_eq_nil.mp hcontra with ⟨-, h2⟩
      exact List.cons_ne_nil _ _ h2
    rw [parse_line_no_hash _ hline hne]
    rw [parseBody_serialized t fts _ none ht2 hf' (by decide) (by decide)]
  | some s =>
    obtain ⟨hhead, htail⟩ := hi
    cases s with
    | nil => simp at hhead
    | cons c cs =>
      have hc : c = '#' := by simpa using hhead
      subst hc
      simp only [List.tail_cons] at htail
      have hA : '#' ∉ t ++ ' ' :: (joinChar ' ' (fts.map (fun p => p.1 ++ ':' :: p.2))
          ++ [' ']) := by
        intro hc2
        rcases List.mem_append.mp hc2 with h1 | h1
        · exact ht3 h1
        · rcases List.mem_cons.mp h1 with h2 | h2
          · exact absurd h2 (by decide)
          · rcases List.mem_append.mp h2 with h3 | h3
            · exact hJhash h3
            · rcases List.mem_cons.mp h3 with h4 | h4
              · exact absurd h4 (by decide)
              · simp at h4
      have hshape : t ++ ' ' :: (joinChar ' ' (fts.map (fun p => p.1 ++ ':' :: p.2))
            ++ ' ' :: infoText (some ('#' :: cs)))
          = (t ++ ' ' :: (joinChar ' ' (fts.map (fun p => p.1 ++ ':' :: p.2))
            ++ [' '])) ++ '#' :: cs := by
        simp [infoText, List.append_assoc]
      rw [hshape]
      rw [parse_line_one_hash _ cs hA htail]
      have hA2 : t ++ ' ' :: (joinChar ' ' (fts.map (fun p => p.1 ++ ':' :: p.2))
            ++ [' '])
          = t ++ ' ' :: (joinChar ' ' (fts.map (fun p => p.1 ++ ':' :: p.2))
            ++ ' ' :: ([] : List Char)) := rfl
      rw [hA2, parseBody_serialized t fts [] (some ('#' :: cs)) ht2 hf'
        (by decide) (by decide)]

/-- Claim C7 witness: a concrete well-formed record with a value holding a
colon and an info comment holding a space round-trips. -/
theorem serialize_parse_round_trip_witness :
    _parseDataLine ((_writeSVMLightData_DataItem ("2".toList)
        [("a".toList, "1:2".toList), ("bc".toList, "7".toList)]
        (some ("#x y".toList))).dropLast)
      = ParseResult.ok ⟨"2".toList,
          [("a".toList, "1:2".toList), ("bc".toList, "7".toList)],
          some ("#x y".toList)⟩ :=
  serialize_parse_round_trip
    ⟨"2".toList, [("a".toList, "1:2".toList), ("bc".toList, "7".toList)],
      some ("#x y".toList)⟩ (by decide)

theorem runLoop_eq_interleaveSpec (lines : List (List Char)) (st : Indexer) :
    (runLoop st lines).1 = interleaveSpec st (keptLines lines) := by
  induction lines generalizing st with
  | nil => rfl
  | cons l rest ih =>
    by_cases hs : pyStrip l = []
    · have h1 : runLoop st (l :: rest) = runLoop st rest := by
        simp [runLoop, hs]
      have h2 : keptLines (l :: rest) = keptLines rest := by
        simp [keptLines, hs]
      rw [h1, h2, ih]
    · have h2 : keptLines (l :: rest) = pyStrip l :: keptLines rest := by
        simp [keptLines, List.isEmpty_eq_true, hs]
      rw [h2]
      by_cases hc : (pyStrip l).head? = some '#'
      · have h1 : runLoop st (l :: rest)
            = (_writeSVMLightData_Comment (pyStrip l) :: (runLoop st rest).1,
               (runLoop st rest).2.1, (runLoop st rest).2.2) := by
          simp [runLoop, hs, hc]
        rw [h1, interleaveSpec, if_pos hc, ih]
      · cases hp : _parseDataLine (pyStrip l) with
        | ok r =>
          cases hg : getIndicesForFeatureList st r.features with
          | mk res st' =>
            cases res with
            | ok fs =>
              have h1 : runLoop st (l :: rest)
                  = (writeIndexedItem r.target fs r.info :: (runLoop st' rest).1,
                     (runLoop st' rest).2.1, (runLoop st' rest).2.2) := by
                simp [runLoop, hs, hc, hp, hg]
              rw [h1]
              simp only [interleaveSpec, if_neg hc, hp, hg]
              rw [ih]
            | error n =>
              have h1 : (runLoop st (l :: rest)).1 = [] := by
                simp [runLoop, hs, hc, hp, hg]
              rw [h1]
              simp only [interleaveSpec, if_neg hc, hp, hg]
        | err =>
          have h1 : (runLoop st (l :: rest)).1 = [] := by
            simp [runLoop, hs, hc, hp]
          rw [h1]
          simp only [interleaveSpec, if_neg hc, hp]
        | nil =>
          have h1 : (runLoop st (l :: rest)).1 = [] := by
            simp [runLoop, hs, hc, hp]
          rw [h1]
          simp only [interleaveSpec, if_neg hc, hp]

/-- C5: in streaming mode the output mirrors the input line for line — every
stripped nonempty input line produces, at its own position, either the
comment itself or the converted record, with the interner state threaded in
input order (`interleaveSpec`); on the spec's four-line example the output is
the comment/data/comment/data pattern with `x` mapped to 1 and `y` mapped
to 2. -/
theorem streaming_preserves_interleaving (lines : List (List Char)) :
    (generateIndexedData lines false).outChunks
      = interleaveSpec Indexer.init (keptLines lines) ∧
    (generateIndexedData (["# header", "1 x:5", "# mid", "2 y:7"].map
        String.toList) false).outChunks
      = ["# header\n", "1 1:5 None\n", "# mid\n", "2 2:7 None\n"].map String.toList ∧
    lookupA (generateIndexedData (["# header", "1 x:5", "# mid", "2 y:7"].map
        String.toList) false).indexer.string2index ("x".toList) = some 1 ∧
    lookupA (generateIndexedData (["# header", "1 x:5", "# mid", "2 y:7"].map
        String.toList) false).indexer.string2index ("y".toList) = some 2 := by
  refine ⟨?_, rfl, rfl, rfl⟩
  simpa [generateIndexedData] using runLoop_eq_interleaveSpec lines Indexer.init

/-- Position-indexed view of a name list: name at position `j` paired with
index `k + j`. -/
def enumFrom1 : Nat → List (List Char) → List (List Char × Nat)
  | _, [] => []
  | k, n :: rest => (n, k) :: enumFrom1 (k + 1) rest

theorem enumFrom1_snoc (k : Nat) (l : List (List Char)) (n : List Char) :
    enumFrom1 k (l ++ [n]) = enumFrom1 k l ++ [(n, k + l.length)] := by
  induction l generalizing k with
  | nil => simp [enumFrom1]
  | cons x xs ih =>
    simp only [List.cons_append, enumFrom1, List.append_eq, ih (k + 1), List.length_cons]
    have harith : k + 1 + xs.length = k + (xs.length + 1) := by omega
    rw [harith]

theorem enumFrom1_map_fst (k : Nat) (l : List (List Char)) :
    (enumFrom1 k l).map Prod.fst = l := by
  induction l generalizing k with
  | nil => rfl
  | cons x xs ih => simp [enumFrom1, ih]

theorem enumFrom1_map_snd (k : Nat) (l : List (List Char)) :
    (enumFrom1 k l).map Prod.snd = List.range' k l.length := by
  induction l generalizing k with
  | nil => rfl
  | cons x xs ih => simp [enumFrom1, ih, List.range']

theorem lookupA_eq_none_iff (l : List (List Char × Nat)) (n : List Char) :
    lookupA l n = none ↔ n ∉ l.map Prod.fst := by
  induction l with
  | nil => simp [lookupA]
  | cons p rest ih =>
    obtain ⟨k, v⟩ := p
    simp only [lookupA, List.map_cons, List.mem_cons]
    by_cases hk : k = n
    · subst hk
      simp
    · rw [if_neg hk, ih]
      constructor
      · rintro h (h1 | h1)
        · exact hk h1.symm
        · exact h h1
      · intro h h1
        exact h (Or.inr h1)

theorem lookupA_append_left (l l' : List (List Char × Nat)) (n : List Char) (i : Nat)
    (h : lookupA l n = some i) : lookupA (l ++ l') n = some i := by
  induction l with
  | nil => simp [lookupA] at h
  | cons p rest ih =>
    obtain ⟨k, v⟩ := p
    by_cases hk : k = n
    · simp_all [lookupA]
    · simp only [lookupA, if_neg hk] at h
      simpa [lookupA, hk] using ih h

theorem lookupA_append_right (l l' : List (List Char × Nat)) (n : List Char)
    (h : lookupA l n = none) : lookupA (l ++ l') n = lookupA l' n := by
  induction l with
  | nil => rfl
  | cons p rest ih =>
    obtain ⟨k, v⟩ := p
    by_cases hk : k = n
    · simp [lookupA, hk] at h
    · simp only [lookupA, if_neg hk] at h
      simpa [lookupA, hk] using ih h

theorem lookupA_enumFrom1 (l : List (List Char)) (k : Nat) (n : List Char) (i : Nat)
    (h : lookupA (enumFrom1 k l) n = some i) :
    k ≤ i ∧ l.get? (i - k) = some n := by
  induction l generalizing k with
  | nil => simp [enumFrom1, lookupA] at h
  | cons x xs ih =>
    simp only [enumFrom1, lookupA] at h
    by_cases hx : x = n
    · rw [if_pos hx] at h
      obtain rfl : k = i := by injection h
      subst hx
      simp
    · rw [if_neg hx] at h
      obtain ⟨h1, h2⟩ := ih (k + 1) h
      refine ⟨by omega, ?_⟩
      have : i - k = (i - (k + 1)) + 1 := by omega
      rw [this]
      simpa using h2

/-- The `qid` branch of `getIndex4Feature`. -/
theorem getIndex4Feature_qid (st : Indexer) :
    getIndex4Feature st qidStr = (FeatureRef.qid, st) := by
  simp [getIndex4Feature]

/-- The known-feature branch of `getIndex4Feature`. -/
theorem getIndex4Feature_known (st : Indexer) (n : List Char) (i : Nat)
    (hn : n ≠ qidStr) (h : lookupA st.string2index n = some i) :
    getIndex4Feature st n = (FeatureRef.idx i, st) := by
  simp [getIndex4Feature, hn, h]

/-- The new-feature branch of `getIndex4Feature`. -/
theorem getIndex4Feature_new (st : Indexer) (n : List Char)
    (hn : n ≠ qidStr) (h : lookupA st.string2index n = none) :
    getIndex4Feature st n = (FeatureRef.idx st.nextIndex,
      { knownFeatures := st.knownFeatures ++ [n]
        string2index := st.string2index ++ [(n, st.nextIndex)]
        nextIndex := st.nextIndex + 1
        mappingWriter := st.mappingWriter.map (fun w => w ++ [(st.nextIndex, n)]) }) := by
  simp [getIndex4Feature, hn, h]

/-- The structural invariant, restated through the positional view. -/
theorem indexerInv_iff (st : Indexer) : IndexerInv st ↔
    (st.string2index = enumFrom1 1 st.knownFeatures ∧
     st.nextIndex = st.knownFeatures.length + 1 ∧
     qidStr ∉ st.knownFeatures ∧ st.knownFeatures.Nodup) := by
  unfold IndexerInv
  have : ∀ k (l : List (List Char)),
      (l.enumFrom k).map (fun p => (p.2, p.1 + 1)) = enumFrom1 (k + 1) l := by
    intro k l
    induction l generalizing k with
    | nil => rfl
    | cons x xs ih => simp [List.enumFrom, enumFrom1, ih]
  rw [List.enum, this 0 st.knownFeatures]

theorem indexerInv_init : IndexerInv Indexer.init := by decide

theorem indexerInv_step (st : Indexer) (n : List Char) (h : IndexerInv st) :
    IndexerInv (getIndex4Feature st n).2 := by
  rw [indexerInv_iff] at h ⊢
  obtain ⟨h1, h2, h3, h4⟩ := h
  by_cases hq : n = qidStr
  · subst hq
    rw [getIndex4Feature_qid]
    exact ⟨h1, h2, h3, h4⟩
  · cases hl : lookupA st.string2index n with
    | some i =>
      rw [getIndex4Feature_known st n i hq hl]
      exact ⟨h1, h2, h3, h4⟩
    | none =>
      rw [getIndex4Feature_new st n hq hl]
      have hnotmem : n ∉ st.knownFeatures := by
        have := (lookupA_eq_none_iff st.string2index n).mp hl
        rwa [h1, enumFrom1_map_fst] at this
      refine ⟨?_, ?_, ?_, ?_⟩
      · rw [h1, h2, enumFrom1_snoc, Nat.add_comm 1 st.knownFeatures.length]
      · simp [h2]
      · simp only [List.mem_append, List.mem_singleton, not_or]
        exact ⟨h3, fun hh => hq hh.symm⟩
      · simp [List.nodup_append, h4, hnotmem]

theorem internAll_cons (st : Indexer) (n : List Char) (rest : List (List Char)) :
    internAll st (n :: rest) = internAll (getIndex4Feature st n).2 rest := rfl

theorem internAll_append (st : Indexer) (a b : List (List Char)) :
    internAll st (a ++ b) = internAll (internAll st a) b := by
  simp [internAll, List.foldl_append]

theorem indexerInv_internAll (st : Indexer) (names : List (List Char))
    (h : IndexerInv st) : IndexerInv (internAll st names) := by
  induction names generalizing st with
  | nil => exact h
  | cons n rest ih => exact ih _ (indexerInv_step st n h)

theorem lookupA_step_mono (st : Indexer) (n m : List Char) (i : Nat)
    (h : lookupA st.string2index m = some i) :
    lookupA (getIndex4Feature st n).2.string2index m = some i := by
  by_cases hq : n = qidStr
  · subst hq
    rw [getIndex4Feature_qid]
    exact h
  · cases hl : lookupA st.string2index n with
    | some j => rw [getIndex4Feature_known st n j hq hl]; exact h
    | none => rw [getIndex4Feature_new st n hq hl]; exact lookupA_append_left _ _ m i h

theorem lookupA_internAll_mono (st : Indexer) (names : List (List Char))
    (m : List Char) (i : Nat) (h : lookupA st.string2index m = some i) :
    lookupA (internAll st names).string2index m = some i := by
  induction names generalizing st with
  | nil => exact h
  | cons n rest ih => exact ih _ (lookupA_step_mono st n m i h)

theorem distinctNonQid_congr (seen1 seen2 : List (List Char))
    (h : ∀ x, x ∈ seen1 ↔ x ∈ seen2) (names : List (List Char)) :
    distinctNonQid seen1 names = distinctNonQid seen2 names := by
  induction names generalizing seen1 seen2 with
  | nil => rfl
  | cons n rest ih =>
    simp only [distinctNonQid]
    by_cases hc : n = qidStr ∨ n ∈ seen1
    · have hc2 : n = qidStr ∨ n ∈ seen2 := by
        rcases hc with h1 | h1
        · exact Or.inl h1
        · exact Or.inr ((h n).mp h1)
      rw [if_pos hc, if_pos hc2, ih seen1 seen2 h]
    · have hc2 : ¬(n = qidStr ∨ n ∈ seen2) := by
        rintro (h1 | h1)
        · exact hc (Or.inl h1)
        · exact hc (Or.inr ((h n).mpr h1))
      rw [if_neg hc, if_neg hc2,
        ih (n :: seen1) (n :: seen2) (by intro x; simp [h x])]

theorem internAll_knownFeatures (names : List (List Char)) (st : Indexer)
    (h : IndexerInv st) : (internAll st names).knownFeatures
      = st.knownFeatures ++ distinctNonQid st.knownFeatures names := by
  induction names generalizing st with
  | nil => simp [internAll, distinctNonQid]
  | cons n rest ih =>
    rw [internAll_cons]
    obtain ⟨h1, h2, h3, h4⟩ := (indexerInv_iff st).mp h
    by_cases hq : n = qidStr
    · subst hq
      simp only [getIndex4Feature_qid]
      rw [ih st h]
      simp [distinctNonQid]
    · cases hl : lookupA st.string2index n with
      | some i =>
        have hmem : n ∈ st.knownFeatures := by
          by_contra hnm
          have hnone : lookupA st.string2index n = none :=
            (lookupA_eq_none_iff st.string2index n).mpr
              (by rwa [h1, enumFrom1_map_fst])
          rw [hnone] at hl
          exact Option.noConfusion hl
        simp only [getIndex4Feature_known st n i hq hl]
        rw [ih st h]
        simp [distinctNonQid, hmem]
      | none =>
        have hnm : n ∉ st.knownFeatures := by
          have := (lookupA_eq_none_iff st.string2index n).mp hl
          rwa [h1, enumFrom1_map_fst] at this
        have hst' := indexerInv_step st n h
        rw [getIndex4Feature_new st n hq hl] at hst'
        simp only [getIndex4Feature_new st n hq hl]
        rw [ih _ hst']
        have hseen : distinctNonQid (st.knownFeatures ++ [n]) rest
            = distinctNonQid (n :: st.knownFeatures) rest :=
          distinctNonQid_congr _ _ (by intro x; simp [Or.comm]) rest
        rw [hseen]
        have hrhs : distinctNonQid st.knownFeatures (n :: rest)
            = n :: distinctNonQid (n :: st.knownFeatures) rest := by
          simp only [distinctNonQid]
          rw [if_neg (by rintro (h5 | h5); exact hq h5; exact hnm h5)]
        rw [hrhs, List.append_assoc]
        rfl

/-- C1: after any sequence of `getIndex4Feature` calls on a fresh `Indexer`,
the interned names are exactly the distinct non-qid names in first-occurrence
order, the assigned indices form the contiguous range `1..K` with `K` the
number of distinct non-qid names seen, each name holds exactly one index that
later calls never change, and `qid` is never entered in the table and always
converts to the literal `qid` token. -/
theorem interning_first_occurrence_dense (names more : List (List Char))
    (n : List Char) (i : Nat)
    (h : lookupA (internAll Indexer.init names).string2index n = some i) :
    (internAll Indexer.init names).knownFeatures = distinctNonQid [] names ∧
    (internAll Indexer.init names).string2index.map Prod.snd
      = List.range' 1 (distinctNonQid [] names).length ∧
    ((internAll Indexer.init names).string2index.map Prod.fst).Nodup ∧
    lookupA (internAll Indexer.init names).string2index qidStr = none ∧
    (getIndex4Feature (internAll Indexer.init names) qidStr).1 = FeatureRef.qid ∧
    lookupA (internAll Indexer.init (names ++ more)).string2index n = some i := by
  have hInv := indexerInv_internAll Indexer.init names indexerInv_init
  obtain ⟨h1, h2, h3, h4⟩ := (indexerInv_iff _).mp hInv
  have hkf : (internAll Indexer.init names).knownFeatures = distinctNonQid [] names := by
    have := internAll_knownFeatures names Indexer.init indexerInv_init
    simpa [Indexer.init] using this
  refine ⟨hkf, ?_, ?_, ?_, ?_, ?_⟩
  · rw [h1, enumFrom1_map_snd, hkf]
  · rw [h1, enumFrom1_map_fst]
    exact h4
  · rw [lookupA_eq_none_iff, h1, enumFrom1_map_fst]
    exact h3
  · rw [getIndex4Feature_qid]
  · rw [internAll_append]
    exact lookupA_internAll_mono _ more n i h

/-- Claim C1 witness: a concrete run (`x`, `qid`, `x`, `y`) assigns `x` index
1, and the index survives further interning. -/
theorem interning_first_occurrence_dense_witness :
    lookupA (internAll Indexer.init (["x", "qid", "x", "y"].map
        String.toList)).string2index ("x".toList) = some 1 ∧
    lookupA (internAll Indexer.init ((["x", "qid", "x", "y"].map String.toList)
        ++ (["z"].map String.toList))).string2index ("x".toList) = some 1 :=
  ⟨rfl, (interning_first_occurrence_dense (["x", "qid", "x", "y"].map String.toList)
    (["z"].map String.toList) ("x".toList) 1 rfl).2.2.2.2.2⟩

theorem pyLtStr_total (s t : List Char) :
    pyLtStr s t = true ∨ pyLtStr t s = true ∨ s = t := by
  induction s generalizing t with
  | nil =>
    cases t with
    | nil => exact Or.inr (Or.inr rfl)
    | cons b bs => exact Or.inl rfl
  | cons a as ih =>
    cases t with
    | nil => exact Or.inr (Or.inl rfl)
    | cons b bs =>
      rcases lt_trichotomy a b with hab | hab | hab
      · left
        simp [pyLtStr, hab]
      · subst hab
        rcases ih bs with h | h | h
        · left
          simp [pyLtStr, h]
        · right
          left
          simp [pyLtStr, h]
        · right
          right
          rw [h]
      · right
        left
        simp [pyLtStr, hab]

theorem pyLtRef_cases (r1 r2 : FeatureRef) :
    pyLtRef r1 r2 = true ∨ pyLtRef r2 r1 = true ∨ r1 = r2 := by
  cases r1 with
  | qid =>
    cases r2 with
    | qid => exact Or.inr (Or.inr rfl)
    | idx n => exact Or.inr (Or.inl rfl)
  | idx m =>
    cases r2 with
    | qid => exact Or.inl rfl
    | idx n =>
      rcases Nat.lt_trichotomy m n with h | h | h
      · left
        simp [pyLtRef, h]
      · subst h
        exact Or.inr (Or.inr rfl)
      · right
        left
        simp [pyLtRef, h]

theorem pyLtRef_irrefl (r : FeatureRef) : pyLtRef r r = false := by
  cases r with
  | qid => rfl
  | idx n => simp [pyLtRef]

theorem pyLePair_total (x y : FeatureRef × List Char) :
    pyLePair x y = true ∨ pyLePair y x = true := by
  unfold pyLePair
  rcases pyLtRef_cases x.1 y.1 with h | h | h
  · left
    simp [h]
  · right
    simp [h]
  · rw [h, pyLtRef_irrefl]
    rcases pyLtStr_total x.2 y.2 with hs | hs | hs
    · left
      simp [hs]
    · right
      simp [hs]
    · left
      simp [hs]

/-- Head compatibility used by the insertion-sort lemmas. -/
def headOk (le : α → α → Bool) (y : α) : List α → Bool
  | [] => true
  | z :: _ => le y z

theorem sortedBy_cons_iff (le : α → α → Bool) (y : α) (l : List α) :
    sortedBy le (y :: l) = (headOk le y l && sortedBy le l) := by
  cases l with
  | nil => rfl
  | cons z zs => rfl

theorem headOk_insertSorted (le : α → α → Bool) (x y : α) (ys : List α)
    (hyx : le y x = true) (hhead : headOk le y ys = true) :
    headOk le y (insertSorted le x ys) = true := by
  cases ys with
  | nil => simpa [insertSorted, headOk] using hyx
  | cons z zs =>
    simp only [insertSorted]
    by_cases hxz : le x z = true
    · rw [if_pos hxz]
      simpa [headOk] using hyx
    · rw [if_neg hxz]
      simpa [headOk] using hhead

theorem sortedBy_insertSorted (le : α → α → Bool)
    (htot : ∀ x y, le x y = true ∨ le y x = true) (x : α) (l : List α)
    (h : sortedBy le l = true) : sortedBy le (insertSorted le x l) = true := by
  induction l with
  | nil => simp [insertSorted, sortedBy]
  | cons y ys ih =>
    rw [sortedBy_cons_iff, Bool.and_eq_true] at h
    obtain ⟨hhead, htail⟩ := h
    simp only [insertSorted]
    by_cases hxy : le x y = true
    · rw [if_pos hxy, sortedBy_cons_iff]
      simp only [headOk, hxy, Bool.true_and]
      rw [sortedBy_cons_iff, Bool.and_eq_true]
      exact ⟨hhead, htail⟩
    · rw [if_neg hxy, sortedBy_cons_iff, Bool.and_eq_true]
      have hyx : le y x = true := (htot x y).resolve_left hxy
      exact ⟨headOk_insertSorted le x y ys hyx hhead, ih htail⟩

theorem sortedBy_pySortG (le : α → α → Bool)
    (htot : ∀ x y, le x y = true ∨ le y x = true) (l : List α) :
    sortedBy le (pySortG le l) = true := by
  induction l with
  | nil => rfl
  | cons x xs ih => exact sortedBy_insertSorted le htot x (pySortG le xs) ih

theorem sortedBy_adjacent (le : α → α → Bool) (l : List α)
    (h : sortedBy le l = true) (i : Nat) (h2 : i + 1 < l.length) :
    le (l.get ⟨i, by omega⟩) (l.get ⟨i + 1, h2⟩) = true := by
  induction l generalizing i with
  | nil => simp at h2
  | cons a l2 ih =>
    cases l2 with
    | nil => simp at h2
    | cons b rest =>
      rw [show sortedBy le (a :: b :: rest)
        = (le a b && sortedBy le (b :: rest)) from rfl, Bool.and_eq_true] at h
      cases i with
      | zero => exact h.1
      | succ j =>
        have h3 : j + 1 < (b :: rest).length := by
          simpa using h2
        exact ih h.2 j h3

theorem pyLePair_qid_forces (x y : FeatureRef × List Char)
    (h : pyLePair x y = true) (h1 : x.1 = FeatureRef.qid) :
    y.1 = FeatureRef.qid := by
  cases hy : y.1 with
  | qid => rfl
  | idx n =>
    rw [pyLePair, h1, hy] at h
    simp [pyLtRef] at h

/-- C2 (amended): every successful `getIndicesForFeatureList` result is
sorted ascending under the Python 2 mixed-type tuple order, in which every
integer index orders BELOW the string `qid`; consequently once a qid pair
appears, everything after it is also a qid pair — in a record mixing qid with
named features the qid pair comes last, not first. -/
theorem converted_record_sorted (st : Indexer)
    (pairs : List (List Char × List Char)) (out : List (FeatureRef × List Char))
    (h : (getIndicesForFeatureList st pairs).1 = Except.ok out) :
    sortedBy pyLePair out = true ∧
    ∀ i, (h2 : i + 1 < out.length) → (out.get ⟨i, by omega⟩).1 = FeatureRef.qid →
      (out.get ⟨i + 1, h2⟩).1 = FeatureRef.qid := by
  have hform : ∃ l, out = pySort l := by
    rw [getIndicesForFeatureList] at h
    rcases hloop : indexLoop st pairs [] with ⟨res, st'⟩
    rw [hloop] at h
    cases res with
    | ok l =>
      refine ⟨l, ?_⟩
      simpa using h.symm
    | error e => simp at h
  obtain ⟨l, rfl⟩ := hform
  have hsorted : sortedBy pyLePair (pySort l) = true :=
    sortedBy_pySortG pyLePair pyLePair_total l
  refine ⟨hsorted, fun i h2 hq => ?_⟩
  exact pyLePair_qid_forces _ _ (sortedBy_adjacent pyLePair _ hsorted i h2) hq

/-- Claim C2 witness: the record `qid:A x:10` converts successfully and the
sortedness and qid-last conclusions hold on it. -/
theorem converted_record_sorted_witness :
    (getIndicesForFeatureList Indexer.init [(qidStr, ['A']), (['x'], ['1', '0'])]).1
      = Except.ok [(FeatureRef.idx 1, ['1', '0']), (FeatureRef.qid, ['A'])] ∧
    sortedBy pyLePair [(FeatureRef.idx 1, ['1', '0']), (FeatureRef.qid, ['A'])] = true :=
  ⟨rfl, (converted_record_sorted Indexer.init [(qidStr, ['A']), (['x'], ['1', '0'])]
    [(FeatureRef.idx 1, ['1', '0']), (FeatureRef.qid, ['A'])] rfl).1⟩

theorem indexLoop_error_iff (pairs : List (List Char × List Char)) (st : Indexer)
    (used : List FeatureRef) (hU : used.Nodup) :
    errE (indexLoop st pairs used).1 = true
      ↔ ¬ (used ++ refsOf st (pairs.map Prod.fst)).Nodup := by
  induction pairs generalizing st used with
  | nil => simp [indexLoop, errE, refsOf, hU]
  | cons p rest ih =>
    obtain ⟨n, v⟩ := p
    by_cases hr : (getIndex4Feature st n).1 ∈ used
    · have hloop : (indexLoop st ((n, v) :: rest) used).1
          = Except.error n := by
        simp [indexLoop, hr]
      rw [hloop]
      simp only [errE, List.map_cons, refsOf, true_iff]
      intro hnd
      rcases List.nodup_append.mp hnd with ⟨-, -, hdisj⟩
      exact hdisj hr (List.mem_cons_self _ _)
    · have hU' : ((getIndex4Feature st n).1 :: used).Nodup := by
        simp [List.nodup_cons, hr, hU]
      have hrec := ih (getIndex4Feature st n).2 ((getIndex4Feature st n).1 :: used) hU'
      have hsame : errE (indexLoop st ((n, v) :: rest) used).1
          = errE (indexLoop (getIndex4Feature st n).2 rest
              ((getIndex4Feature st n).1 :: used)).1 := by
        rcases hinner : indexLoop (getIndex4Feature st n).2 rest
            ((getIndex4Feature st n).1 :: used) with ⟨res2, st2⟩
        cases res2 with
        | ok l => simp [indexLoop, hr, hinner, errE]
        | error e => simp [indexLoop, hr, hinner, errE]
      rw [hsame, hrec]
      simp only [List.map_cons, refsOf]
      constructor
      · intro hno hnd
        exact hno (((List.perm_middle).nodup_iff).mp hnd)
      · intro hno hnd
        exact hno (((List.perm_middle).nodup_iff).mpr hnd)

/-- The reference a name receives, read off the final interner state. -/
def refWrt (s : Indexer) (n : List Char) : FeatureRef :=
  if n = qidStr then FeatureRef.qid
  else FeatureRef.idx ((lookupA s.string2index n).getD 0)

theorem refsOf_eq_map (st : Indexer) (names : List (List Char))
    (h : IndexerInv st) :
    refsOf st names = names.map (refWrt (internAll st names)) := by
  induction names generalizing st with
  | nil => rfl
  | cons n rest ih =>
    have hst' : IndexerInv (getIndex4Feature st n).2 := indexerInv_step st n h
    simp only [refsOf, List.map_cons, internAll_cons]
    rw [ih _ hst']
    congr 1
    by_cases hq : n = qidStr
    · subst hq
      simp [getIndex4Feature_qid, refWrt]
    · cases hl : lookupA st.string2index n with
      | some i =>
        rw [getIndex4Feature_known st n i hq hl]
        have hmono : lookupA (internAll st rest).string2index n = some i :=
          lookupA_internAll_mono st rest n i hl
        simp [refWrt, hq, hmono]
      | none =>
        rw [getIndex4Feature_new st n hq hl]
        have hnew : lookupA (st.string2index ++ [(n, st.nextIndex)]) n
            = some st.nextIndex := by
          rw [lookupA_append_right _ _ _ hl]
          simp [lookupA]
        have hmono := lookupA_internAll_mono
          { knownFeatures := st.knownFeatures ++ [n]
            string2index := st.string2index ++ [(n, st.nextIndex)]
            nextIndex := st.nextIndex + 1
            mappingWriter := st.mappingWriter.map (fun w => w ++ [(st.nextIndex, n)]) }
          rest n st.nextIndex hnew
        simp [refWrt, hq, hmono]

theorem lookupA_internAll_of_mem (st : Indexer) (names : List (List Char))
    (n : List Char) (hn : n ∈ names) (hq : n ≠ qidStr) :
    ∃ i, lookupA (internAll st names).string2index n = some i := by
  induction names generalizing st with
  | nil => simp at hn
  | cons m rest ih =>
    rw [internAll_cons]
    by_cases hm : n = m
    · subst hm
      cases hl : lookupA st.string2index n with
      | some i =>
        refine ⟨i, ?_⟩
        apply lookupA_internAll_mono
        cases hql : decide (n = qidStr) with
        | true => exact absurd (of_decide_eq_true hql) hq
        | false =>
          rw [getIndex4Feature_known st n i hq hl]
          exact hl
      | none =>
        refine ⟨st.nextIndex, ?_⟩
        apply lookupA_internAll_mono
        rw [getIndex4Feature_new st n hq hl]
        show lookupA (st.string2index ++ [(n, st.nextIndex)]) n = some st.nextIndex
        rw [lookupA_append_right _ _ _ hl]
        simp [lookupA]
    · rcases List.mem_cons.mp hn with h1 | h1
      · exact absurd h1 hm
      · exact ih _ h1

theorem nodup_refs_iff_nodup_names (st : Indexer) (names : List (List Char))
    (h : IndexerInv st) : (refsOf st names).Nodup ↔ names.Nodup := by
  rw [refsOf_eq_map st names h]
  constructor
  · exact List.Nodup.of_map _
  · intro hnd
    apply List.Nodup.map_on ?_ hnd
    intro x hx y hy hxy
    by_cases hxq : x = qidStr
    · by_cases hyq : y = qidStr
      · rw [hxq, hyq]
      · rw [refWrt, if_pos hxq, refWrt, if_neg hyq] at hxy
        exact absurd hxy (by simp)
    · by_cases hyq : y = qidStr
      · rw [refWrt, if_neg hxq, refWrt, if_pos hyq] at hxy
        exact absurd hxy (by simp)
      · obtain ⟨i, hi⟩ := lookupA_internAll_of_mem st names x hx hxq
        obtain ⟨j, hj⟩ := lookupA_internAll_of_mem st names y hy hyq
        rw [refWrt, if_neg hxq, refWrt, if_neg hyq, hi, hj] at hxy
        simp only [Option.getD_some, FeatureRef.idx.injEq] at hxy
        have hfin := indexerInv_internAll st names h
        obtain ⟨h1, -, -, -⟩ := (indexerInv_iff _).mp hfin
        rw [h1] at hi hj
        obtain ⟨-, hgx⟩ := lookupA_enumFrom1 _ 1 x i hi
        obtain ⟨-, hgy⟩ := lookupA_enumFrom1 _ 1 y j hj
        rw [hxy] at hgx
        rw [hgx] at hgy
        injection hgy

/-- C4: `getIndicesForFeatureList` raises the duplicate-feature `ValueError`
exactly when two input names convert to the same `FeatureRef`, which, from
any reachable indexer state, happens exactly when the name list contains a
duplicated name (`qid` appearing twice included); the error propagates in
place of a converted record, so the input record `1 a:1 a:2` aborts the
conversion run with no output produced for it. -/
theorem duplicate_feature_error_iff (st : Indexer)
    (pairs : List (List Char × List Char)) (h : IndexerInv st) :
    (errE (getIndicesForFeatureList st pairs).1 = true
      ↔ ¬ (refsOf st (pairs.map Prod.fst)).Nodup) ∧
    ((refsOf st (pairs.map Prod.fst)).Nodup ↔ (pairs.map Prod.fst).Nodup) ∧
    (generateIndexedDataStr "1 a:1 a:2\n" false).err
      = some (RunError.dupFeature ['a']) ∧
    (generateIndexedDataStr "1 a:1 a:2\n" false).outChunks = [] := by
  refine ⟨?_, nodup_refs_iff_nodup_names st _ h, rfl, rfl⟩
  have hsame : errE (getIndicesForFeatureList st pairs).1
      = errE (indexLoop st pairs []).1 := by
    rw [getIndicesForFeatureList]
    rcases hl : indexLoop st pairs [] with ⟨res, st'⟩
    cases res with
    | ok l => simp [errE]
    | error e => simp [errE]
  rw [hsame]
  have := indexLoop_error_iff pairs st [] List.nodup_nil
  simpa using this

/-- Claim C4 witness: the fresh indexer state is reachable, and converting
the duplicate-name record raises while converting a duplicate-free one does
not. -/
theorem duplicate_feature_error_iff_witness :
    IndexerInv Indexer.init ∧
    errE (getIndicesForFeatureList Indexer.init [(['a'], ['1']), (['a'], ['2'])]).1
      = true ∧
    errE (getIndicesForFeatureList Indexer.init [(['a'], ['1']), (['b'], ['2'])]).1
      = false := by
  refine ⟨indexerInv_init, ?_, rfl⟩
  exact (duplicate_feature_error_iff Indexer.init [(['a'], ['1']), (['a'], ['2'])]
    indexerInv_init).1.mpr (by decide)

theorem indexLoop_error_state (pairs : List (List Char × List Char))
    (st : Indexer) (used : List FeatureRef) (e : List Char)
    (h : (indexLoop st pairs used).1 = Except.error e) :
    ∃ j, j ≤ pairs.length ∧ e ∈ (pairs.map Prod.fst).take j ∧
      (indexLoop st pairs used).2 = internAll st ((pairs.map Prod.fst).take j) := by
  induction pairs generalizing st used with
  | nil => simp [indexLoop] at h
  | cons p rest ih =>
    obtain ⟨n, v⟩ := p
    by_cases hr : (getIndex4Feature st n).1 ∈ used
    · refine ⟨1, by simp, ?_, ?_⟩
      · simp only [List.map_cons, List.take_succ_cons, List.take_zero]
        have : e = n := by
          have hh : (indexLoop st ((n, v) :: rest) used).1 = Except.error n := by
            simp [indexLoop, hr]
          rw [hh] at h
          injection h with h2
          exact h2.symm
        simp [this]
      · have hh : (indexLoop st ((n, v) :: rest) used).2
            = (getIndex4Feature st n).2 := by
          simp [indexLoop, hr]
        rw [hh]
        rfl
    · rcases hinner : indexLoop (getIndex4Feature st n).2 rest
        ((getIndex4Feature st n).1 :: used) with ⟨res2, st2⟩
      cases res2 with
      | ok l =>
        have : (indexLoop st ((n, v) :: rest) used).1 = Except.ok ((⟨(getIndex4Feature st n).1, v⟩ : FeatureRef × List Char) :: l) := by
          simp [indexLoop, hr, hinner]
        rw [this] at h
        exact Except.noConfusion h
      | error e2 =>
        have h1 : (indexLoop st ((n, v) :: rest) used).1 = Except.error e2 := by
          simp [indexLoop, hr, hinner]
        have h2 : (indexLoop st ((n, v) :: rest) used).2 = st2 := by
          simp [indexLoop, hr, hinner]
        have he : e2 = e := by
          rw [h1] at h
          injection h
        subst he
        obtain ⟨j, hj1, hj2, hj3⟩ := ih (getIndex4Feature st n).2
          ((getIndex4Feature st n).1 :: used) (by rw [hinner])
        refine ⟨j + 1, by simpa using Nat.succ_le_succ hj1, ?_, ?_⟩
        · simp only [List.map_cons, List.take_succ_cons]
          exact List.mem_cons_of_mem n hj2
        · rw [h2]
          rw [hinner] at hj3
          simpa [List.take_succ_cons, internAll_cons] using hj3

theorem internAll_writer (st : Indexer) (names : List (List Char))
    (w : List (Nat × List Char)) (h : st.mappingWriter = some w) :
    ∃ ext, (internAll st names).mappingWriter = some (w ++ ext) ∧
      ∀ n ∈ names, n ≠ qidStr → lookupA st.string2index n = none →
        ∃ i, lookupA (internAll st names).string2index n = some i ∧ (i, n) ∈ ext := by
  induction names generalizing st w with
  | nil =>
    refine ⟨[], by simpa [internAll], ?_⟩
    intro n hn
    simp at hn
  | cons m rest ih =>
    rw [internAll_cons]
    by_cases hq : m = qidStr
    · subst hq
      rw [getIndex4Feature_qid]
      obtain ⟨ext, h1, h2⟩ := ih st w h
      refine ⟨ext, h1, ?_⟩
      intro n hn hnq hnone
      rcases List.mem_cons.mp hn with h3 | h3
      · exact absurd h3 hnq
      · exact h2 n h3 hnq hnone
    · cases hl : lookupA st.string2index m with
      | some i =>
        rw [getIndex4Feature_known st m i hq hl]
        obtain ⟨ext, h1, h2⟩ := ih st w h
        refine ⟨ext, h1, ?_⟩
        intro n hn hnq hnone
        rcases List.mem_cons.mp hn with h3 | h3
        · subst h3
          rw [hnone] at hl
          exact Option.noConfusion hl
        · exact h2 n h3 hnq hnone
      | none =>
        rw [getIndex4Feature_new st m hq hl]
        set st1 : Indexer :=
          { knownFeatures := st.knownFeatures ++ [m]
            string2index := st.string2index ++ [(m, st.nextIndex)]
            nextIndex := st.nextIndex + 1
            mappingWriter := st.mappingWriter.map (fun w => w ++ [(st.nextIndex, m)]) }
          with hst1
        have hw1 : st1.mappingWriter = some (w ++ [(st.nextIndex, m)]) := by
          rw [hst1, h]
          rfl
        have hm1 : lookupA st1.string2index m = some st.nextIndex := by
          rw [hst1]
          show lookupA (st.string2index ++ [(m, st.nextIndex)]) m = some st.nextIndex
          rw [lookupA_append_right _ _ _ hl]
          simp [lookupA]
        obtain ⟨ext', h1', h2'⟩ := ih st1 (w ++ [(st.nextIndex, m)]) hw1
        refine ⟨(st.nextIndex, m) :: ext', by simpa using h1', ?_⟩
        intro n hn hnq hnone
        by_cases hnm : n = m
        · subst hnm
          refine ⟨st.nextIndex, lookupA_internAll_mono st1 rest n st.nextIndex hm1,
            List.mem_cons_self _ _⟩
        · rcases List.mem_cons.mp hn with h3 | h3
          · exact absurd h3 hnm
          · have hnone1 : lookupA st1.string2index n = none := by
              rw [hst1]
              show lookupA (st.string2index ++ [(m, st.nextIndex)]) n = none
              rw [lookupA_append_right _ _ _ hnone]
              simp only [lookupA, if_neg (fun hh : m = n => hnm hh.symm)]
            obtain ⟨i, hi1, hi2⟩ := h2' n h3 hnq hnone1
            exact ⟨i, hi1, List.mem_cons_of_mem _ hi2⟩

/-- C10: when `getIndicesForFeatureList` raises the duplicate-feature error,
the interner state is not rolled back: the returned state is exactly the fold
of `getIndex4Feature` over the names processed up to and including the raise
(a prefix of the record that contains the duplicated name), every non-qid
name in that prefix is still interned in `string2index`, and an active
live-mapping sink has already received an `(index, name)` entry for every
name that was newly interned. -/
theorem no_rollback_on_duplicate_error (st : Indexer)
    (pairs : List (List Char × List Char)) (e : List Char)
    (h : (getIndicesForFeatureList st pairs).1 = Except.error e) :
    ∃ j, j ≤ pairs.length ∧ e ∈ (pairs.map Prod.fst).take j ∧
      (getIndicesForFeatureList st pairs).2
        = internAll st ((pairs.map Prod.fst).take j) ∧
      (∀ n ∈ (pairs.map Prod.fst).take j, n ≠ qidStr →
        (lookupA (getIndicesForFeatureList st pairs).2.string2index n).isSome
          = true) ∧
      (∀ w, st.mappingWriter = some w → ∃ ext,
        (getIndicesForFeatureList st pairs).2.mappingWriter = some (w ++ ext) ∧
        ∀ n ∈ (pairs.map Prod.fst).take j, n ≠ qidStr →
          lookupA st.string2index n = none →
          ∃ i, lookupA (getIndicesForFeatureList st pairs).2.string2index n
              = some i ∧ (i, n) ∈ ext) := by
  rcases hloop : indexLoop st pairs [] with ⟨res, st'⟩
  cases res with
  | ok l =>
    rw [getIndicesForFeatureList, hloop] at h
    simp at h
  | error e2 =>
    have hg : getIndicesForFeatureList st pairs = (Except.error e2, st') := by
      rw [getIndicesForFeatureList, hloop]
    have he : e2 = e := by
      rw [hg] at h
      injection h
    subst he
    obtain ⟨j, hj1, hj2, hj3⟩ := indexLoop_error_state pairs st [] e2 (by rw [hloop])
    rw [hloop] at hj3
    have hfin : (getIndicesForFeatureList st pairs).2
        = internAll st ((pairs.map Prod.fst).take j) := by
      rw [hg]
      exact hj3
    refine ⟨j, hj1, hj2, hfin, ?_, ?_⟩
    · intro n hn hq
      obtain ⟨i, hi⟩ := lookupA_internAll_of_mem st _ n hn hq
      rw [hfin, hi]
      rfl
    · intro w hw
      obtain ⟨ext, h1, h2⟩ := internAll_writer st ((pairs.map Prod.fst).take j) w hw
      rw [hfin]
      exact ⟨ext, h1, h2⟩

/-- Claim C10 witness: with a live sink active, converting
`a:1 b:2 a:3` raises on the repeated `a`, and the state keeps both interned
names and their sink entries. -/
theorem no_rollback_on_duplicate_error_witness :
    (getIndicesForFeatureList (activateLiveWriting Indexer.init)
        [(['a'], ['1']), (['b'], ['2']), (['a'], ['3'])]).1
      = Except.error ['a'] ∧
    ∃ j, j ≤ ([(['a'], ['1']), (['b'], ['2']), (['a'], ['3'])] :
        List (List Char × List Char)).length ∧
      ['a'] ∈ (([(['a'], ['1']), (['b'], ['2']), (['a'], ['3'])] :
        List (List Char × List Char)).map Prod.fst).take j ∧
      (getIndicesForFeatureList (activateLiveWriting Indexer.init)
          [(['a'], ['1']), (['b'], ['2']), (['a'], ['3'])]).2
        = internAll (activateLiveWriting Indexer.init)
            ((([(['a'], ['1']), (['b'], ['2']), (['a'], ['3'])] :
              List (List Char × List Char)).map Prod.fst).take j) ∧
      (∀ n ∈ (([(['a'], ['1']), (['b'], ['2']), (['a'], ['3'])] :
          List (List Char × List Char)).map Prod.fst).take j, n ≠ qidStr →
        (lookupA (getIndicesForFeatureList (activateLiveWriting Indexer.init)
            [(['a'], ['1']), (['b'], ['2']), (['a'], ['3'])]).2.string2index n).isSome
          = true) ∧
      (∀ w, (activateLiveWriting Indexer.init).mappingWriter = some w → ∃ ext,
        (getIndicesForFeatureList (activateLiveWriting Indexer.init)
            [(['a'], ['1']), (['b'], ['2']), (['a'], ['3'])]).2.mappingWriter
          = some (w ++ ext) ∧
        ∀ n ∈ (([(['a'], ['1']), (['b'], ['2']), (['a'], ['3'])] :
            List (List Char × List Char)).map Prod.fst).take j, n ≠ qidStr →
          lookupA (activateLiveWriting Indexer.init).string2index n = none →
          ∃ i, lookupA (getIndicesForFeatureList (activateLiveWriting Indexer.init)
                [(['a'], ['1']), (['b'], ['2']), (['a'], ['3'])]).2.string2index n
              = some i ∧ (i, n) ∈ ext) :=
  ⟨rfl, no_rollback_on_duplicate_error (activateLiveWriting Indexer.init)
    [(['a'], ['1']), (['b'], ['2']), (['a'], ['3'])] ['a'] rfl⟩
